import Mathlib

/-!
Verification of the expiring TTL cache engine (`src/server/main.go`).

The Go engine keeps a `map[string]CacheItem` where a `CacheItem` holds an
opaque value and an `expiration` timestamp in whole Unix seconds
(`time.Now().Add(ttl).Unix()`).  We model the map as a function from keys to
optional items, times and durations as integers counting nanoseconds (the
representation of Go's `time.Time` / `time.Duration`), and `Unix()` as floor
division by 10^9.  `Get` returns the pair (result, updated store) because the
Go `Get` deletes an expired entry as a side effect.
-/

namespace LRUCache

/-- Nanoseconds per second: the conversion factor used by Go's `Unix()`. -/
def nsPerSec : Int := 1000000000

/-- Go's `Time.Unix()`: the timestamp truncated to whole seconds (floor,
since a `time.Time` stores non-negative nanoseconds within a second). -/
def unixSec (t : Int) : Int := t / nsPerSec

/-- `CacheItem` from the source: an opaque value and an expiration time
in whole Unix seconds. -/
structure CacheItem (V : Type) where
  value : V
  expiration : Int
  deriving Repr, DecidableEq

/-- The `items map[string]CacheItem` field of `Cache`, modelled as a
partial function from keys to items. -/
def Store (V : Type) := String → Option (CacheItem V)

namespace Cache

variable {V : Type}

/-- `NewCache` from the source: the store starts as an empty map. -/
def NewCache : Store V := fun _ => none

/-- `Cache.Set` from the source: stores
`CacheItem{value, time.Now().Add(expiration).Unix()}` at `key`,
overwriting any previous entry.  `now` is the value of `time.Now()`
in nanoseconds at the moment of the call. -/
def Set (s : Store V) (key : String) (value : V) (expiration : Int) (now : Int) : Store V :=
  fun k =>
    if k = key then some { value := value, expiration := unixSec (now + expiration) }
    else s k

/-- `Cache.Get` from the source: looks up `key`; on a miss returns
`(nil, false)`; if `time.Now().Unix() > item.expiration` it deletes the
entry and returns `(nil, false)`; otherwise it returns `(item.value, true)`.
The second component of the result is the store after the call. -/
def Get (s : Store V) (key : String) (now : Int) : (Option V × Bool) × Store V :=
  match s key with
  | none => ((none, false), s)
  | some item =>
      if unixSec now > item.expiration then
        ((none, false), fun k => if k = key then none else s k)
      else
        ((some item.value, true), s)

/-- `Cache.evictExpiredItems` from the source: one sweep tick; removes
every entry with `time.Now().Unix() > item.expiration`. -/
def evictExpiredItems (s : Store V) (now : Int) : Store V :=
  fun k =>
    match s k with
    | none => none
    | some item => if unixSec now > item.expiration then none else some item

/-- `Cache.startEvictionProcess` from the source: the background loop runs
`evictExpiredItems` then sleeps one second, forever.  `startEvictionProcess
s t0 n` is the store after the first `n` ticks, tick `i` occurring at time
`t0 + i * nsPerSec`. -/
def startEvictionProcess (s : Store V) (t0 : Int) : Nat → Store V
  | 0 => s
  | n + 1 => evictExpiredItems (startEvictionProcess s t0 n) (t0 + n * nsPerSec)

end Cache

/-- The kind of lock an operation acquires on `c.mutex` (a `sync.RWMutex`). -/
inductive LockKind where
  | shared
  | exclusive
  deriving DecidableEq, Repr

/-- Whether a lock kind permits mutation of the guarded data. -/
def LockKind.writeCapable : LockKind → Bool
  | .shared => false
  | .exclusive => true

/-- Lock taken by `Cache.Get` in the source: `c.mutex.RLock()`. -/
def getLockKind : LockKind := .shared

/-- Lock taken by `Cache.Set` in the source: `c.mutex.Lock()`. -/
def setLockKind : LockKind := .exclusive

/-- Lock taken by `Cache.evictExpiredItems` in the source: `c.mutex.Lock()`. -/
def evictLockKind : LockKind := .exclusive

/- ## Helper lemmas -/

lemma nsPerSec_pos : (0 : Int) < nsPerSec := by decide

lemma unixSec_mono {a b : Int} (h : a ≤ b) : unixSec a ≤ unixSec b :=
  Int.ediv_le_ediv nsPerSec_pos h

lemma unixSec_add_nsPerSec (a : Int) : unixSec (a + nsPerSec) = unixSec a + 1 := by
  have h := Int.add_mul_ediv_right a 1 (by decide : nsPerSec ≠ 0)
  simpa [unixSec] using h

/-- Entries surviving `Get` are verbatim entries of the input store. -/
lemma get_store_sub {V : Type} (s : Store V) (key : String) (now : Int) (k : String) :
    (Cache.Get s key now).2 k = s k ∨ (Cache.Get s key now).2 k = none := by
  unfold Cache.Get
  cases hs : s key with
  | none => exact Or.inl rfl
  | some item =>
      by_cases hexp : unixSec now > item.expiration
      · simp only [hexp, if_pos]
        by_cases hk : k = key
        · exact Or.inr (by simp [hk])
        · exact Or.inl (by simp [hk])
      · simp only [hexp, if_neg]
        exact Or.inl rfl

/-- Entries surviving a sweep tick are verbatim entries of the input store. -/
lemma evict_store_sub {V : Type} (s : Store V) (now : Int) (k : String) :
    Cache.evictExpiredItems s now k = s k ∨ Cache.evictExpiredItems s now k = none := by
  unfold Cache.evictExpiredItems
  cases hs : s k with
  | none => exact Or.inr rfl
  | some item =>
      by_cases hexp : unixSec now > item.expiration
      · exact Or.inr (by simp [hexp])
      · exact Or.inl (by simp [hexp])

/-- A key absent from the store stays absent through a sweep tick. -/
lemma evict_none {V : Type} {s : Store V} {k : String} (h : s k = none) (now : Int) :
    Cache.evictExpiredItems s now k = none := by
  unfold Cache.evictExpiredItems
  simp [h]

/-- An entry a sweep tick keeps was already present and is unexpired. -/
lemma evict_some {V : Type} {s : Store V} {k : String} {it : CacheItem V} {now : Int}
    (h : Cache.evictExpiredItems s now k = some it) :
    s k = some it ∧ unixSec now ≤ it.expiration := by
  unfold Cache.evictExpiredItems at h
  cases hs : s k with
  | none => simp [hs] at h
  | some item =>
      simp only [hs] at h
      by_cases hexp : unixSec now > item.expiration
      · simp [hexp] at h
      · simp only [hexp, if_neg] at h
        injection h with h2
        subst h2
        exact ⟨rfl, le_of_not_lt hexp⟩

/-- Entries surviving sweep ticks are verbatim entries of the initial store. -/
lemma sweep_some {V : Type} {s : Store V} {t0 : Int} {k : String} {it : CacheItem V} :
    ∀ {n : Nat}, Cache.startEvictionProcess s t0 n k = some it → s k = some it := by
  intro n
  induction n with
  | zero => exact fun h => h
  | succ m ih =>
      intro h
      exact ih (evict_some h).1

/-- Once a key is absent it stays absent through further sweep ticks. -/
lemma sweep_none_step {V : Type} {s : Store V} {t0 : Int} {k : String} {n : Nat}
    (h : Cache.startEvictionProcess s t0 n k = none) :
    ∀ m : Nat, n ≤ m → Cache.startEvictionProcess s t0 m k = none := by
  intro m hm
  induction m with
  | zero =>
      have : n = 0 := Nat.le_zero.mp hm
      simpa [this] using h
  | succ p ih =>
      rcases Nat.lt_or_ge n (p + 1) with hlt | hge
      · have hp : Cache.startEvictionProcess s t0 p k = none := ih (Nat.lt_succ_iff.mp hlt)
        exact evict_none hp _
      · have : n = p + 1 := le_antisymm hm hge
        simpa [this] using h

/-- Reading back the key just written: hit while unexpired, miss (and delete)
once the whole-second clock has passed the stored expiration. -/
lemma get_set_self {V : Type} (s : Store V) (k : String) (v : V) (d tset t : Int) :
    Cache.Get (Cache.Set s k v d tset) k t =
      if unixSec (tset + d) < unixSec t
      then ((none, false), fun q => if q = k then none else Cache.Set s k v d tset q)
      else ((some v, true), Cache.Set s k v d tset) := by
  unfold Cache.Get Cache.Set
  simp only [if_pos rfl]
  by_cases hexp : unixSec (tset + d) < unixSec t <;> simp [hexp]

/-- When `Get` reports `found = true`, the entry exists, is unexpired at the
whole-second clock, and its value is returned. -/
lemma get_found {V : Type} {s : Store V} {q : String} {t : Int}
    (h : ((Cache.Get s q t).1).2 = true) :
    ∃ it, s q = some it ∧ unixSec t ≤ it.expiration ∧
      ((Cache.Get s q t).1).1 = some it.value := by
  cases hs : s q with
  | none => rw [show Cache.Get s q t = ((none, false), s) from by unfold Cache.Get; simp [hs]] at h; simp at h
  | some item =>
      by_cases hexp : unixSec t > item.expiration
      · rw [show Cache.Get s q t
            = ((none, false), fun k => if k = q then none else s k) from by
              unfold Cache.Get; simp [hs, hexp]] at h
        simp at h
      · exact ⟨item, rfl, le_of_not_lt hexp, by unfold Cache.Get; simp [hs, hexp]⟩

/- ## Claims -/

/-- Claim C2: `Set` computes the expiration `now + ttl` (truncated to whole
Unix seconds by `Unix()`) once at insertion time and stores or overwrites the
entry for `key` with exactly that value and expiration, unconditionally — for
every prior store, with no capacity check.  Afterwards no operation recomputes
an expiration: `Get` and the sweep each leave every entry verbatim or delete
it, so a stored expiration is never modified. -/
theorem set_semantics {V : Type} (s : Store V) (key : String) (value : V)
    (ttl now : Int) :
    Cache.Set s key value ttl now key =
      some { value := value, expiration := unixSec (now + ttl) } ∧
    (∀ (s2 : Store V) (k q : String) (t : Int),
        (Cache.Get s2 q t).2 k = s2 k ∨ (Cache.Get s2 q t).2 k = none) ∧
    (∀ (s2 : Store V) (k : String) (t : Int),
        Cache.evictExpiredItems s2 t k = s2 k ∨ Cache.evictExpiredItems s2 t k = none) :=
  ⟨by simp [Cache.Set],
   fun s2 k q t => get_store_sub s2 q t k,
   fun s2 k t => evict_store_sub s2 t k⟩

/-- Claim C3: last-writer-wins.  A second `Set` on the same key makes the
store identical to one where only the second `Set` happened, so `d1` has no
residual effect and every subsequent `Get` (result and side effect alike)
behaves as dictated by `v2` and `d2` alone. -/
theorem overwrite_last_writer_wins {V : Type} (s : Store V) (k : String)
    (v1 v2 : V) (d1 d2 t1 t2 : Int) :
    Cache.Set (Cache.Set s k v1 d1 t1) k v2 d2 t2 = Cache.Set s k v2 d2 t2 ∧
    (∀ t : Int, Cache.Get (Cache.Set (Cache.Set s k v1 d1 t1) k v2 d2 t2) k t =
        Cache.Get (Cache.Set s k v2 d2 t2) k t) := by
  have hst : Cache.Set (Cache.Set s k v1 d1 t1) k v2 d2 t2 = Cache.Set s k v2 d2 t2 := by
    funext q
    by_cases hq : q = k <;> simp [Cache.Set, hq]
  exact ⟨hst, fun t => by rw [hst]⟩

/-- Claim C4: lazy eviction.  If an entry for `k` exists but has expired at
call time, `Get k` returns `(none, false)` and deletes the entry: afterwards
`k` is absent from the store. -/
theorem get_lazy_eviction {V : Type} (s : Store V) (k : String) (it : CacheItem V)
    (t : Int) (hfound : s k = some it) (hexp : it.expiration < unixSec t) :
    (Cache.Get s k t).1 = (none, false) ∧ (Cache.Get s k t).2 k = none := by
  unfold Cache.Get
  simp [hfound, hexp]

/-- A concrete store holding the single entry `"a" ↦ (7, expiration 0)`. -/
def storeA : Store Nat :=
  fun q => if q = "a" then some { value := 7, expiration := 0 } else none

/-- Witness for C4: in `storeA` the entry for `"a"` expired at second 0, so a
`Get` at 2 seconds misses and deletes it. -/
theorem get_lazy_eviction_witness :
    storeA "a" = some { value := 7, expiration := 0 } ∧
    (0 : Int) < unixSec (2 * nsPerSec) ∧
    (Cache.Get storeA "a" (2 * nsPerSec)).1 = (none, false) ∧
    (Cache.Get storeA "a" (2 * nsPerSec)).2 "a" = none :=
  ⟨by decide, by decide,
   get_lazy_eviction storeA "a" { value := 7, expiration := 0 } (2 * nsPerSec)
     (by decide) (by decide)⟩

/-- Claim C6: `Get` never fails.  Its result is always either `(none, false)`
(covering both absence and expiration) or `(some value, true)` for an
unexpired stored entry; there is no error outcome.  In particular on a key
with no entry — such as any key of a fresh `NewCache` — it returns
`(none, false)` and leaves the store untouched. -/
theorem get_never_fails {V : Type} (s : Store V) (k : String) (t : Int) :
    ((Cache.Get s k t).1 = (none, false) ∨
      ∃ it, s k = some it ∧ unixSec t ≤ it.expiration ∧
        (Cache.Get s k t).1 = (some it.value, true)) ∧
    (s k = none → Cache.Get s k t = ((none, false), s)) ∧
    Cache.Get (Cache.NewCache (V := V)) k t = ((none, false), Cache.NewCache) := by
  refine ⟨?_, ?_, ?_⟩
  · cases hs : s k with
    | none => left; unfold Cache.Get; simp [hs]
    | some item =>
        by_cases hexp : unixSec t > item.expiration
        · left; unfold Cache.Get; simp [hs, hexp]
        · right; exact ⟨item, rfl, le_of_not_lt hexp, by unfold Cache.Get; simp [hs, hexp]⟩
  · intro hnone; unfold Cache.Get; simp [hnone]
  · unfold Cache.Get Cache.NewCache; simp

/-- Witness for C6: looking up a key that was never set in a fresh cache. -/
theorem get_never_fails_witness :
    Cache.NewCache (V := Nat) "nonexistent" = none ∧
    Cache.Get (Cache.NewCache (V := Nat)) "nonexistent" 0 =
      ((none, false), Cache.NewCache) :=
  ⟨rfl, (get_never_fails (Cache.NewCache (V := Nat)) "nonexistent" 0).2.1 rfl⟩

/-- Claim C1: expiration correctness.  A key set at `setTime` with ttl `d` is
returned with its value by any `Get` strictly before `setTime + d`, and is
reported missing by any `Get` from `setTime + d` on — modulo the granularity
of the time source: the clock is truncated to whole seconds, so the guarantee
of a miss holds once `t` is at least one granularity unit (`nsPerSec`) past
the deadline, queries inside the boundary second being decided by the
truncated comparison.  Moreover every entry any `Get` returns satisfies
`now ≤ expiresAt` (in whole seconds) at the moment of the check. -/
theorem expiration_correctness {V : Type} (s : Store V) (k : String) (v : V)
    (d setTime t : Int) :
    (t < setTime + d → (Cache.Get (Cache.Set s k v d setTime) k t).1 = (some v, true)) ∧
    (setTime + d + nsPerSec ≤ t →
      (Cache.Get (Cache.Set s k v d setTime) k t).1 = (none, false)) ∧
    (∀ (s2 : Store V) (q : String), ((Cache.Get s2 q t).1).2 = true →
      ∃ it, s2 q = some it ∧ unixSec t ≤ it.expiration) := by
  refine ⟨?_, ?_, ?_⟩
  · intro h
    have hle : unixSec t ≤ unixSec (setTime + d) := unixSec_mono (le_of_lt h)
    rw [get_set_self]
    simp [not_lt.mpr hle]
  · intro h
    have h1 : unixSec (setTime + d) + 1 ≤ unixSec t := by
      have h2 := unixSec_mono h
      rwa [unixSec_add_nsPerSec] at h2
    rw [get_set_self]
    simp [lt_of_lt_of_le (lt_add_one (unixSec (setTime + d))) h1]
  · intro s2 q h
    obtain ⟨it, h1, h2, _⟩ := get_found h
    exact ⟨it, h1, h2⟩

/-- Witness for C1: key set at time 0 with ttl 2 s; a read at 1 s hits with
the stored value, and a read at 3 s misses. -/
theorem expiration_correctness_witness :
    (nsPerSec < 0 + 2 * nsPerSec ∧
      (Cache.Get (Cache.Set (Cache.NewCache (V := Nat)) "a" 7 (2 * nsPerSec) 0)
        "a" nsPerSec).1 = (some 7, true)) ∧
    (0 + 2 * nsPerSec + nsPerSec ≤ 3 * nsPerSec ∧
      (Cache.Get (Cache.Set (Cache.NewCache (V := Nat)) "a" 7 (2 * nsPerSec) 0)
        "a" (3 * nsPerSec)).1 = (none, false)) :=
  ⟨⟨by decide,
    (expiration_correctness Cache.NewCache "a" 7 (2 * nsPerSec) 0 nsPerSec).1 (by decide)⟩,
   ⟨by decide,
    (expiration_correctness Cache.NewCache "a" 7 (2 * nsPerSec) 0 (3 * nsPerSec)).2.1
      (by decide)⟩⟩

/-- Claim C8: whole-second truncation.  `Set` stores
`expiresAt = unixSec (now + ttl)`; `Get` reports a hit exactly when
`unixSec now > expiresAt` fails, and a sweep tick removes an entry exactly
when `unixSec now > expiresAt` holds; two ttls whose sums with `now` truncate
to the same second produce identical stores (sub-second components of the
ttl are lost); and after `Set` with ttl `0` a `Get` within the same
wall-clock second still returns the value with `found = true`. -/
theorem expiration_truncated_to_seconds {V : Type} (s : Store V) (k : String)
    (v : V) (ttl now t : Int) :
    Cache.Set s k v ttl now k =
      some { value := v, expiration := unixSec (now + ttl) } ∧
    (∀ it : CacheItem V, s k = some it →
        (((Cache.Get s k t).1).2 = true ↔ ¬ it.expiration < unixSec t)) ∧
    (∀ it : CacheItem V, s k = some it →
        (Cache.evictExpiredItems s t k = none ↔ it.expiration < unixSec t)) ∧
    (∀ ttl2 : Int, unixSec (now + ttl) = unixSec (now + ttl2) →
        Cache.Set s k v ttl now = Cache.Set s k v ttl2 now) ∧
    (unixSec t = unixSec now →
        (Cache.Get (Cache.Set s k v 0 now) k t).1 = (some v, true)) := by
  refine ⟨by simp [Cache.Set], ?_, ?_, ?_, ?_⟩
  · intro it hit
    constructor
    · intro h
      obtain ⟨it2, h1, h2, _⟩ := get_found h
      rw [hit] at h1
      injection h1 with h1
      subst h1
      exact not_lt.mpr h2
    · intro h
      unfold Cache.Get
      simp [hit, h]
  · intro it hit
    unfold Cache.evictExpiredItems
    by_cases h : it.expiration < unixSec t <;> simp [hit, h]
  · intro ttl2 heq
    funext q
    by_cases hq : q = k <;> simp [Cache.Set, hq, heq]
  · intro h
    rw [get_set_self]
    simp [add_zero, h]

/-- Witness for C8: `Set` at 0.5 s with ttl 0 stores expiration second 0, and
a `Get` at 0.9 s — the same wall-clock second — still hits. -/
theorem expiration_truncated_witness :
    unixSec 900000000 = unixSec 500000000 ∧
    (Cache.Get (Cache.Set (Cache.NewCache (V := Nat)) "b" 3 0 500000000)
      "b" 900000000).1 = (some 3, true) :=
  ⟨by decide,
   (expiration_truncated_to_seconds (Cache.NewCache (V := Nat)) "b" 3 0 500000000
     900000000).2.2.2.2 (by decide)⟩

/-- Claim C9: frame properties.  `Set` on key `k` leaves every other key's
entry unchanged; `Get k` leaves every other key's entry unchanged; and when
`k` is absent or its entry is unexpired, `Get k` leaves the whole store
unchanged — its only possible mutation is deleting `k`'s own entry. -/
theorem frame_properties {V : Type} (s : Store V) (k k2 : String) (v : V)
    (ttl now t : Int) (hne : k2 ≠ k) :
    Cache.Set s k v ttl now k2 = s k2 ∧
    (Cache.Get s k t).2 k2 = s k2 ∧
    (s k = none → (Cache.Get s k t).2 = s) ∧
    (∀ it : CacheItem V, s k = some it → unixSec t ≤ it.expiration →
        (Cache.Get s k t).2 = s) := by
  refine ⟨by simp [Cache.Set, hne], ?_, ?_, ?_⟩
  · unfold Cache.Get
    cases hs : s k with
    | none => rfl
    | some item =>
        by_cases hexp : unixSec t > item.expiration <;> simp [hexp, hne]
  · intro hnone
    unfold Cache.Get
    simp [hnone]
  · intro it hit hlive
    unfold Cache.Get
    simp [hit, not_lt.mpr hlive]

/-- Witness for C9: with only `"a"` in the store, a `Set` and a `Get` on
`"a"` do not disturb the absent key `"b"`, and a `Get` of the unexpired
entry leaves the store unchanged. -/
theorem frame_properties_witness :
    ("b" ≠ "a") ∧
    Cache.Set storeA "a" 9 nsPerSec 0 "b" = storeA "b" ∧
    (Cache.Get storeA "a" 0).2 "b" = storeA "b" ∧
    (Cache.Get storeA "a" 0).2 = storeA := by
  have h := frame_properties storeA "a" "b" 9 nsPerSec 0 0 (by decide)
  exact ⟨by decide, h.1, h.2.1,
    h.2.2.2 { value := 7, expiration := 0 } (by decide) (by decide)⟩

/-- Claim C10: no operation removes an unexpired entry.  If `k`'s entry
satisfies `now ≤ expiresAt` (in whole seconds), then a `Get` on any key
leaves it in place, a sweep tick leaves it in place, and a `Set` on any
other key leaves it in place: an unexpired entry can only be replaced by a
`Set` on the same key, never dropped. -/
theorem unexpired_never_removed {V : Type} (s : Store V) (k : String)
    (it : CacheItem V) (t : Int) (hfound : s k = some it)
    (hlive : unixSec t ≤ it.expiration) :
    (∀ q : String, (Cache.Get s q t).2 k = some it) ∧
    Cache.evictExpiredItems s t k = some it ∧
    (∀ (q : String) (v : V) (ttl : Int), q ≠ k → Cache.Set s q v ttl t k = some it) := by
  refine ⟨?_, ?_, ?_⟩
  · intro q
    by_cases hq : q = k
    · subst hq
      unfold Cache.Get
      simp [hfound, not_lt.mpr hlive]
    · unfold Cache.Get
      cases hs : s q with
      | none => exact hfound
      | some item =>
          by_cases hexp : unixSec t > item.expiration
          · have hkq : ¬ k = q := fun h => hq h.symm
            simpa [hexp, hkq] using hfound
          · simpa [hexp] using hfound
  · unfold Cache.evictExpiredItems
    simp [hfound, not_lt.mpr hlive]
  · intro q v ttl hq
    have : ¬ k = q := fun h => hq h.symm
    simp [Cache.Set, this, hfound]

/-- A concrete store holding the single unexpired entry
`"a" ↦ (7, expiration second 5)`. -/
def storeLive : Store Nat :=
  fun q => if q = "a" then some { value := 7, expiration := 5 } else none

/-- Witness for C10: the entry for `"a"` expiring at second 5 survives a
`Get` on `"a"`, a `Get` on `"b"`, a sweep tick, and a `Set` on `"b"`, all
at time 2 s. -/
theorem unexpired_never_removed_witness :
    storeLive "a" = some { value := 7, expiration := 5 } ∧
    unixSec (2 * nsPerSec) ≤ 5 ∧
    (Cache.Get storeLive "a" (2 * nsPerSec)).2 "a" =
      some { value := 7, expiration := 5 } ∧
    (Cache.Get storeLive "b" (2 * nsPerSec)).2 "a" =
      some { value := 7, expiration := 5 } ∧
    Cache.evictExpiredItems storeLive (2 * nsPerSec) "a" =
      some { value := 7, expiration := 5 } ∧
    Cache.Set storeLive "b" 1 nsPerSec (2 * nsPerSec) "a" =
      some { value := 7, expiration := 5 } := by
  have h := unexpired_never_removed storeLive "a" { value := 7, expiration := 5 }
    (2 * nsPerSec) (by decide) (by decide)
  exact ⟨by decide, by decide, h.1 "a", h.1 "b", h.2.1, h.2.2 "b" 1 nsPerSec (by decide)⟩

/-- A tick at a time at which the entry at `k` is expired removes whatever
the sweep has left at `k`. -/
lemma sweep_kills {V : Type} {s : Store V} {t0 : Int} {k : String} {it : CacheItem V}
    (hit : s k = some it) (n : Nat)
    (hexp : it.expiration < unixSec (t0 + n * nsPerSec)) :
    Cache.startEvictionProcess s t0 (n + 1) k = none := by
  show Cache.evictExpiredItems
    (Cache.startEvictionProcess s t0 n) (t0 + n * nsPerSec) k = none
  cases hcur : Cache.startEvictionProcess s t0 n k with
  | none => exact evict_none hcur _
  | some it2 =>
      have hsk : s k = some it2 := sweep_some hcur
      rw [hit] at hsk
      injection hsk with hsk
      unfold Cache.evictExpiredItems
      simp [hcur, ← hsk, hexp]

/-- Claim C5: sweep correctness and liveness.  A tick of
`evictExpiredItems` at time `t` removes every entry whose expiration has
passed at tick time; after the tick every remaining entry satisfies
`unixSec t ≤ expiresAt` (no expired entry remains) and is a verbatim entry
of the pre-tick store.  For the background loop ticking every second from
`t0`, an entry that is expired at some time `T` (and never rewritten) is
removed by a tick that occurs no later than `T + nsPerSec` — within one
sweep interval — and stays absent at every later tick. -/
theorem sweep_removes_expired {V : Type} (s : Store V) (t : Int) :
    (∀ (k : String) (it : CacheItem V), s k = some it → it.expiration < unixSec t →
        Cache.evictExpiredItems s t k = none) ∧
    (∀ (k : String) (it : CacheItem V), Cache.evictExpiredItems s t k = some it →
        unixSec t ≤ it.expiration ∧ s k = some it) ∧
    (∀ (t0 T : Int) (k : String) (it : CacheItem V),
        t0 ≤ T → s k = some it → it.expiration < unixSec T →
        ∃ n : Nat, T ≤ t0 + n * nsPerSec ∧ t0 + n * nsPerSec ≤ T + nsPerSec ∧
          ∀ m : Nat, n < m → Cache.startEvictionProcess s t0 m k = none) := by
  refine ⟨?_, ?_, ?_⟩
  · intro k it hit hexp
    unfold Cache.evictExpiredItems
    simp [hit, hexp]
  · intro k it h
    exact ⟨(evict_some h).2, (evict_some h).1⟩
  · intro t0 T k it ht0 hit hexp
    set D : Int := T - t0 with hD
    have hD0 : 0 ≤ D := by omega
    set q : Int := D / nsPerSec with hq
    have hq0 : 0 ≤ q := Int.ediv_nonneg hD0 (le_of_lt nsPerSec_pos)
    have hql : q * nsPerSec ≤ D := Int.ediv_mul_le D (ne_of_gt nsPerSec_pos)
    have hqu : D < (q + 1) * nsPerSec := Int.lt_ediv_add_one_mul_self D nsPerSec_pos
    have hcast : ((q.toNat + 1 : Nat) : Int) = q + 1 := by
      simp [Int.toNat_of_nonneg hq0]
    have hsplit : (q + 1) * nsPerSec = q * nsPerSec + nsPerSec := by ring
    refine ⟨q.toNat + 1, ?_, ?_, ?_⟩
    · rw [hcast]
      linarith
    · rw [hcast]
      linarith
    · intro m hm
      have htick : T ≤ t0 + (q.toNat + 1 : Nat) * nsPerSec := by
        rw [hcast]
        linarith
      have hexp2 : it.expiration < unixSec (t0 + (q.toNat + 1 : Nat) * nsPerSec) :=
        lt_of_lt_of_le hexp (unixSec_mono htick)
      exact sweep_none_step (sweep_kills hit (q.toNat + 1) hexp2) m hm

/-- Witness for C5: in `storeA` the entry for `"a"` expired at second 0; with
the sweep started at time 0, some tick no later than one interval past
`T = 2 s` removes it for good. -/
theorem sweep_removes_expired_witness :
    ((0 : Int) ≤ 2 * nsPerSec ∧
      storeA "a" = some { value := 7, expiration := 0 } ∧
      (0 : Int) < unixSec (2 * nsPerSec)) ∧
    (∃ n : Nat, 2 * nsPerSec ≤ 0 + n * nsPerSec ∧
      0 + n * nsPerSec ≤ 2 * nsPerSec + nsPerSec ∧
      ∀ m : Nat, n < m → Cache.startEvictionProcess storeA 0 m "a" = none) :=
  ⟨⟨by decide, by decide, by decide⟩,
   (sweep_removes_expired storeA (2 * nsPerSec)).2.2 0 (2 * nsPerSec) "a"
     { value := 7, expiration := 0 } (by decide) (by decide) (by decide)⟩

/-- Claim C7, evaluated against the code: in the source `Get` acquires the
shared lock (`c.mutex.RLock()`), which is not write-capable, while `Set` and
the sweep acquire the exclusive lock; yet `Get` on an expired entry mutates
the store by deleting the entry.  The exclusive access the claim requires
for the whole check-then-delete sequence is therefore absent: the deletion
runs under a shared (read) lock. -/
theorem get_mutates_under_shared_lock :
    getLockKind = LockKind.shared ∧
    getLockKind.writeCapable = false ∧
    setLockKind.writeCapable = true ∧
    evictLockKind.writeCapable = true ∧
    (Cache.Get storeA "a" (2 * nsPerSec)).2 "a" ≠ storeA "a" := by
  exact ⟨rfl, rfl, rfl, rfl, by decide⟩

end LRUCache
